import Mathlib

set_option maxHeartbeats 1000000

namespace Sparselizard

/-! Shallow embedding of the sparselizard dense index matrix (src/src/indexmat.h)
and of the opparameter expression node (src/src/expression/operation/opparameter.h).
The repository sources contain only the header files, whose inline bodies are limited
to the trivial accessors; every other member function is modelled from the spec
(sections 3, 4.1, 4.2, 4.4, 7, 8 of spec.md) and from the documentation comments
in the headers, which are part of the sources. -/

/-- Modelled from the spec: the Dense Index Matrix of spec section 4.1, a
numrows by numcols matrix of integers stored row major; the buffer content is
held as a flat list. The implementation file of indexmat is missing from the
sources; only the header src/src/indexmat.h with its documentation comments is
present. -/
structure indexmat where
  numrows : Nat
  numcols : Nat
  values : List Int
deriving Repr, DecidableEq

/-- From src/src/indexmat.h line 45: countrows returns numrows. -/
def indexmat.countrows (A : indexmat) : Nat := A.numrows

/-- From src/src/indexmat.h line 46: countcolumns returns numcols. -/
def indexmat.countcolumns (A : indexmat) : Nat := A.numcols

/-- From src/src/indexmat.h line 47: count returns numrows times numcols. -/
def indexmat.count (A : indexmat) : Nat := A.numrows * A.numcols

/-- Well formed matrix: the buffer holds exactly count entries. -/
def indexmat.wf (A : indexmat) : Prop := A.values.length = A.count

/-- From src/src/indexmat.h line 33: the default constructor leaves the zero
initialised members, giving a 0 by 0 matrix with no allocated buffer. -/
def indexmat.emptymat : indexmat := ⟨0, 0, []⟩

/-- Modelled from the spec: errorifempty throws when the matrix has zero
entries (spec sections 4.1 and 7, empty container condition); modelled as a
boolean emptiness test used to gate the reductions below. -/
def indexmat.errorifempty (A : indexmat) : Bool := A.count == 0

/-- Modelled from the spec: sum reduces over all entries and fails with the
empty container condition on a matrix with zero entries (spec section 4.1);
failure is modelled as none. -/
def indexmat.sum (A : indexmat) : Option Int :=
  if A.count = 0 then none else some A.values.sum

/-- Modelled from the spec: max reduces over all entries, failing on an empty
matrix (spec section 4.1). -/
def indexmat.max (A : indexmat) : Option Int :=
  if A.count = 0 then none else A.values.max?

/-- Modelled from the spec: minmax returns the pair of the minimum and maximum
entry, failing on an empty matrix (spec section 4.1). -/
def indexmat.minmax (A : indexmat) : Option (Int × Int) :=
  if A.count = 0 then none else
    match A.values.min?, A.values.max? with
    | some mn, some mx => some (mn, mx)
    | _, _ => none

/-- Modelled from the spec: countpositive counts the positive or zero integer
values (documentation comment at src/src/indexmat.h line 52), modelled as a
counting fold over the buffer. -/
def indexmat.countpositive (A : indexmat) : Nat :=
  A.values.foldl (fun cnt v => if 0 ≤ v then cnt + 1 else cnt) 0

/-- Modelled from the spec: countoccurences counts the occurrences of a value
(documentation comment at src/src/indexmat.h line 54). -/
def indexmat.countoccurences (A : indexmat) (value : Int) : Nat :=
  (A.values.filter (fun v => v == value)).length

/-- Modelled from the spec: countalloccurences returns a vector whose entry i
gives the number of times value i appears, for i from 0 to maxintval
(documentation comment at src/src/indexmat.h line 58 and spec section 4.1). -/
def indexmat.countalloccurences (A : indexmat) (maxintval : Nat) : List Nat :=
  (List.range (maxintval + 1)).map (fun v : Nat => A.countoccurences (v : Int))

/-- Row i of the matrix, read from the row major buffer. -/
def indexmat.getrow (A : indexmat) (i : Nat) : List Int :=
  (A.values.drop (i * A.numcols)).take A.numcols

/-- The list of all rows of the matrix. -/
def indexmat.rowsof (A : indexmat) : List (List Int) :=
  (List.range A.numrows).map (fun i => A.getrow i)

/-- Modelled from the spec: duplicateallrowstogether outputs a matrix of size
(p times n) by q where the whole block of rows is repeated n times in sequence
(documentation comment at src/src/indexmat.h lines 83 to 87 and spec section
4.1). -/
def indexmat.duplicateallrowstogether (A : indexmat) (n : Nat) : indexmat :=
  ⟨A.numrows * n, A.numcols, (List.replicate n A.values).flatten⟩

/-- Helper for row by row duplication: every row of the list is repeated n
times contiguously. -/
def repeatrows (n : Nat) : List (List Int) → List Int
  | [] => []
  | r :: rs => (List.replicate n r).flatten ++ repeatrows n rs

/-- Modelled from the spec: duplicaterowsonebyone outputs a matrix of size
(p times n) by q where every individual row is repeated n times contiguously
(documentation comment at src/src/indexmat.h lines 88 to 92 and spec section
4.1). -/
def indexmat.duplicaterowsonebyone (A : indexmat) (n : Nat) : indexmat :=
  ⟨A.numrows * n, A.numcols, repeatrows n A.rowsof⟩

/-! A heap model for the buffer sharing behaviour: a store of reference counted
buffers addressed by identifier, and matrices that hold a buffer identifier.
This captures the aliasing contract of getresized (same buffer, values not
copied, documentation comment at src/src/indexmat.h line 49) and the deep copy
contract of copy (all values are copied, line 77). -/

/-- The heap of allocated integer buffers, addressed by position. -/
abbrev Store := List (List Int)

/-- Modelled from the spec: a dense index matrix as it lives in memory, with a
shared pointer to its value buffer (members numrows, numcols, myvalues of
src/src/indexmat.h lines 22 to 24); none models the null pointer of a default
constructed matrix. -/
structure indexmatref where
  numrows : Nat
  numcols : Nat
  buf : Option Nat
deriving Repr, DecidableEq

/-- Element count of a matrix in the heap model, numrows times numcols. -/
def indexmatref.count (A : indexmatref) : Nat := A.numrows * A.numcols

/-- From src/src/indexmat.h line 33: the default constructed matrix, 0 by 0
with a null buffer pointer. -/
def indexmatref.emptyref : indexmatref := ⟨0, 0, none⟩

/-- The flat row major value sequence a matrix sees through its buffer. -/
def valuesof (s : Store) (A : indexmatref) : List Int :=
  match A.buf with
  | none => []
  | some b => s.getD b []

/-- Modelled from the spec: getresized only changes numrows and numcols, the
values are not copied and the very same buffer is shared; no check against the
original element count is made (documentation comment at src/src/indexmat.h
line 49 and spec sections 4.1 and 9). -/
def indexmatref.getresized (A : indexmatref) (m n : Nat) : indexmatref :=
  ⟨m, n, A.buf⟩

/-- Modelled from the spec: copy returns a full copy where all values are
copied into a freshly allocated buffer (documentation comment at
src/src/indexmat.h line 77 and spec section 4.1). -/
def copyref (s : Store) (A : indexmatref) : Store × indexmatref :=
  (s ++ [valuesof s A], ⟨A.numrows, A.numcols, some s.length⟩)

/-- Writing value v at flat position i of the buffer of A, the mutation any
raw value access permits (getvalues, src/src/indexmat.h line 75). -/
def setvalue (s : Store) (A : indexmatref) (i : Nat) (v : Int) : Store :=
  match A.buf with
  | none => s
  | some b => s.set b ((s.getD b []).set i v)

/-! The operation tree. Only the header of opparameter is in the sources; the
bodies of simplify, interpolate and copy are modelled from spec sections 3,
4.2 and 4.4. Values are modelled as exact rationals, so equality of values
implies equality within any floating tolerance. -/

/-- Modelled from the spec: the Raw Parameter Store of spec section 4.2, a
mapping from disjoint region and tensor component to the coefficient function
over evaluation coordinates, together with the query whether the parameter is
constant on a region set (which drives the simplify pass); the query is sound:
when it reports a constant, the coefficient function is that constant on each
of the queried regions. -/
structure rawparameter where
  value : Nat → Nat → Nat → ℚ → ℚ
  constantvalue : List Nat → Nat → Nat → Option ℚ
  constantvalue_ok : ∀ dr row col c, constantvalue dr row col = some c →
    ∀ r ∈ dr, ∀ x, value r row col x = c

/-- Modelled from the spec: the polymorphic expression node hierarchy of spec
section 3 (constant, parameter reference with its reuse flag and row and
column tensor component address as in src/src/expression/operation/opparameter.h
lines 20 to 29, and algebraic combinators). -/
inductive operation where
  | opconstant (c : ℚ)
  | opparameter (p : rawparameter) (row : Nat) (col : Nat) (reuse : Bool)
  | opsum (a b : operation)
  | opproduct (a b : operation)

/-- Modelled from the spec: interpolate evaluates the node on a batch of
evaluation coordinates for the active disjoint region of the element selector
(spec section 4.4); a parameter node looks its coefficients up in the raw
parameter store at its tensor component address. -/
def operation.interpolate : operation → Nat → List ℚ → List ℚ
  | .opconstant c, _, xs => xs.map (fun _ => c)
  | .opparameter p row col _, r, xs => xs.map (fun x => p.value r row col x)
  | .opsum a b, r, xs => List.zipWith (fun u v => u + v) (a.interpolate r xs) (b.interpolate r xs)
  | .opproduct a b, r, xs => List.zipWith (fun u v => u * v) (a.interpolate r xs) (b.interpolate r xs)

/-- Modelled from the spec: simplify returns an equivalent cheaper subtree
specialised to the given region set, folding a parameter that is constant on
those regions into a single constant node and leaving other nodes in place
(spec section 4.4 and src/src/expression/operation/opparameter.h line 38);
being a pure function it never mutates its argument. -/
def operation.simplify : operation → List Nat → operation
  | .opconstant c, _ => .opconstant c
  | .opparameter p row col reuse, disjregs =>
      match p.constantvalue disjregs row col with
      | some c => .opconstant c
      | none => .opparameter p row col reuse
  | .opsum a b, disjregs => .opsum (a.simplify disjregs) (b.simplify disjregs)
  | .opproduct a b, disjregs => .opproduct (a.simplify disjregs) (b.simplify disjregs)

/-- Modelled from the spec: copy returns a structural deep copy preserving the
reuse flag and the tensor component address (spec section 4.4 and
src/src/expression/operation/opparameter.h line 41). -/
def operation.copy : operation → operation
  | .opconstant c => .opconstant c
  | .opparameter p row col reuse => .opparameter p row col reuse
  | .opsum a b => .opsum a.copy b.copy
  | .opproduct a b => .opproduct a.copy b.copy

/-- The reuse flag of a parameter node, none on other nodes. -/
def operation.getreuse : operation → Option Bool
  | .opparameter _ _ _ reuse => some reuse
  | _ => none

/-- The row and column tensor component address of a parameter node. -/
def operation.getrowcol : operation → Option (Nat × Nat)
  | .opparameter _ row col _ => some (row, col)
  | _ => none

/-- A concrete raw parameter, constant with value 3 on every region. -/
def sampleparam : rawparameter where
  value := fun _ _ _ _ => 3
  constantvalue := fun _ _ _ => some 3
  constantvalue_ok := by
    intro dr row col c hc r hr x
    injection hc

/-- A concrete operation tree over the sample parameter. -/
def sampleop : operation :=
  .opsum (.opparameter sampleparam 0 0 false) (.opconstant 2)

/-! Theorems settling the claims. -/

/-- Claim C10: for every indexmat, count always equals countrows times
countcolumns, a default constructed indexmat is 0 by 0 with zero count and no
allocated value buffer, and the dimension invariant holds for every matrix an
operation can produce since count is computed from the dimensions. -/
theorem count_dimension_invariant :
    (∀ A : indexmat, A.count = A.countrows * A.countcolumns) ∧
    (∀ A : indexmatref, A.count = A.numrows * A.numcols) ∧
    indexmat.emptymat.countrows = 0 ∧ indexmat.emptymat.countcolumns = 0 ∧
    indexmat.emptymat.count = 0 ∧ indexmat.emptymat.values = [] ∧
    indexmatref.emptyref.numrows = 0 ∧ indexmatref.emptyref.numcols = 0 ∧
    indexmatref.emptyref.count = 0 ∧ indexmatref.emptyref.buf = none :=
  ⟨fun _ => rfl, fun _ => rfl, rfl, rfl, rfl, rfl, rfl, rfl, rfl, rfl⟩

/-- Claim C7: copy returns a structural deep copy of the operation node, in
particular it preserves the reuse flag and the row and column tensor component
address of a parameter node. -/
theorem copy_preserves_reuse_and_address (op : operation) :
    op.copy = op ∧ op.copy.getreuse = op.getreuse ∧
    op.copy.getrowcol = op.getrowcol := by
  have h : ∀ o : operation, o.copy = o := by
    intro o
    induction o with
    | opconstant c => rfl
    | opparameter p row col reuse => rfl
    | opsum a b iha ihb => simp [operation.copy, iha, ihb]
    | opproduct a b iha ihb => simp [operation.copy, iha, ihb]
  exact ⟨h op, by rw [h op], by rw [h op]⟩

/-- Claim C2: on any region of the region set handed to simplify, the
simplified tree interpolates to exactly the same values as the original tree
(exact rational equality, hence within any floating tolerance), in particular
when a parameter is constant on those regions and is folded to a constant
node; simplify is a pure function and leaves the original tree unchanged. -/
theorem simplify_preserves_interpolation (op : operation) (disjregs : List Nat)
    (r : Nat) (xs : List ℚ) (hr : r ∈ disjregs) :
    (op.simplify disjregs).interpolate r xs = op.interpolate r xs := by
  induction op with
  | opconstant c => rfl
  | opparameter p row col reuse =>
      cases hc : p.constantvalue disjregs row col with
      | none => simp [operation.simplify, hc]
      | some c =>
          simp only [operation.simplify, hc, operation.interpolate]
          have hv : ∀ x : ℚ, p.value r row col x = c :=
            fun x => p.constantvalue_ok disjregs row col c hc r hr x
          simp [hv]
  | opsum a b iha ihb => simp [operation.simplify, operation.interpolate, iha, ihb]
  | opproduct a b iha ihb => simp [operation.simplify, operation.interpolate, iha, ihb]

/-- Witness for claim C2 at a concrete tree, region set and batch. -/
theorem simplify_preserves_interpolation_witness :
    (0 : Nat) ∈ ([0, 1] : List Nat) ∧
    (sampleop.simplify [0, 1]).interpolate 0 [0, 1] =
      sampleop.interpolate 0 [0, 1] :=
  ⟨by decide, simplify_preserves_interpolation sampleop [0, 1] 0 [0, 1] (by decide)⟩

/-- Claim C1: getresized returns a matrix with the requested dimensions over
the very same buffer (so the flat row major value sequence is identical when
the element counts agree), the original matrix keeps its own dimensions and
values, and no dimension check is made: the buffer is shared for every
requested shape. -/
theorem getresized_shares_buffer (s : Store) (A : indexmatref) (m n : Nat)
    (h : m * n = A.count) :
    (A.getresized m n).numrows = m ∧ (A.getresized m n).numcols = n ∧
    (A.getresized m n).buf = A.buf ∧
    valuesof s (A.getresized m n) = valuesof s A ∧
    (∀ m' n' : Nat, (A.getresized m' n').buf = A.buf) :=
  ⟨rfl, rfl, rfl, rfl, fun _ _ => rfl⟩

/-- Witness for claim C1 at a concrete store and matrix. -/
theorem getresized_shares_buffer_witness :
    1 * 4 = (indexmatref.mk 2 2 (some 0)).count ∧
    valuesof [[1, 2, 3, 4]] ((indexmatref.mk 2 2 (some 0)).getresized 1 4) =
      valuesof [[1, 2, 3, 4]] (indexmatref.mk 2 2 (some 0)) :=
  ⟨by decide,
   (getresized_shares_buffer [[1, 2, 3, 4]] ⟨2, 2, some 0⟩ 1 4 (by decide)).2.2.2.1⟩

/-- Reading the heap at a position untouched by a set elsewhere. -/
lemma getD_set_of_ne {α : Type} (l : List α) (i j : Nat) (a d : α) (h : i ≠ j) :
    (l.set i a).getD j d = l.getD j d := by
  simp [List.getD_eq_getElem?_getD, List.getElem?_set_ne h]

/-- Claim C6: copy returns a matrix value equal to the original (same
dimensions, same row major entries) over a freshly allocated buffer, so
mutating any value of the copy leaves the values of the original unchanged and
mutating the original leaves the values of the copy unchanged. -/
theorem copy_is_deep (s : Store) (A : indexmatref) (b : Nat)
    (hb : A.buf = some b) (hlt : b < s.length) :
    ((copyref s A).2).numrows = A.numrows ∧
    ((copyref s A).2).numcols = A.numcols ∧
    valuesof (copyref s A).1 (copyref s A).2 = valuesof s A ∧
    valuesof (copyref s A).1 A = valuesof s A ∧
    (∀ i v, valuesof (setvalue (copyref s A).1 (copyref s A).2 i v) A =
      valuesof (copyref s A).1 A) ∧
    (∀ i v, valuesof (setvalue (copyref s A).1 A i v) (copyref s A).2 =
      valuesof (copyref s A).1 (copyref s A).2) := by
  have hbs : b ≠ s.length := Nat.ne_of_lt hlt
  refine ⟨rfl, rfl, ?_, ?_, ?_, ?_⟩
  · show (s ++ [valuesof s A]).getD s.length [] = valuesof s A
    rw [List.getD_append_right _ _ _ _ (Nat.le_refl _)]
    simp
  · simp only [copyref, valuesof, hb]
    rw [List.getD_append _ _ _ _ hlt]
  · intro i v
    simp only [setvalue, copyref, valuesof, hb]
    exact getD_set_of_ne _ _ _ _ _ hbs.symm
  · intro i v
    show (valuesof (setvalue (copyref s A).1 A i v) (copyref s A).2) =
      valuesof (copyref s A).1 (copyref s A).2
    simp only [setvalue, copyref, hb, valuesof]
    exact getD_set_of_ne _ _ _ _ _ hbs

/-- Witness for claim C6 at a concrete store and matrix. -/
theorem copy_is_deep_witness :
    (indexmatref.mk 1 2 (some 0)).buf = some 0 ∧ 0 < ([[5, 7]] : Store).length ∧
    valuesof (copyref [[5, 7]] ⟨1, 2, some 0⟩).1 (copyref [[5, 7]] ⟨1, 2, some 0⟩).2 =
      valuesof [[5, 7]] ⟨1, 2, some 0⟩ :=
  ⟨rfl, by decide,
   (copy_is_deep [[5, 7]] ⟨1, 2, some 0⟩ 0 rfl (by decide)).2.2.1⟩

/-- Claim C3: on a matrix with zero entries, sum, max and minmax all fail with
the empty container condition (modelled as none) instead of returning a
default value; on every non empty matrix they succeed, sum reducing over all
entries of the buffer. -/
theorem empty_reductions_fail (A : indexmat) (hwf : A.wf) :
    (A.count = 0 → A.sum = none ∧ A.max = none ∧ A.minmax = none) ∧
    (A.count ≠ 0 → A.sum = some A.values.sum ∧
      A.max.isSome = true ∧ A.minmax.isSome = true) := by
  constructor
  · intro h
    simp [indexmat.sum, indexmat.max, indexmat.minmax, h]
  · intro h
    have hne : A.values ≠ [] := by
      intro hv
      rw [indexmat.wf, hv] at hwf
      exact h hwf.symm
    obtain ⟨a, l, hv⟩ := List.exists_cons_of_ne_nil hne
    refine ⟨by simp [indexmat.sum, h], ?_, ?_⟩
    · simp [indexmat.max, h, hv, List.max?_cons']
    · simp [indexmat.minmax, h, hv, List.max?_cons', List.min?_cons']

/-- Witness for claim C3 at a concrete non empty and a concrete empty
matrix, using the theorem at the non empty one. -/
theorem empty_reductions_fail_witness :
    (indexmat.mk 1 2 [3, -1]).sum = some 2 ∧
    (indexmat.mk 1 2 [3, -1]).max.isSome = true ∧
    (indexmat.mk 1 2 [3, -1]).minmax.isSome = true := by
  have h := (empty_reductions_fail ⟨1, 2, [3, -1]⟩ rfl).2 (by decide)
  refine ⟨?_, h.2.1, h.2.2⟩
  rw [h.1]
  decide

/-- Claim C9: countpositive counts the entries that are positive or zero, that
is all non negative entries including those equal to zero, and not only the
strictly positive ones: it exceeds the strictly positive count by exactly the
number of zero entries. -/
theorem countpositive_counts_nonnegative (A : indexmat) :
    A.countpositive = (A.values.filter (fun v => decide (0 ≤ v))).length ∧
    A.countpositive =
      (A.values.filter (fun v => decide (0 < v))).length + A.countoccurences 0 := by
  have hfold : ∀ (l : List Int) (a : Nat),
      l.foldl (fun cnt v => if 0 ≤ v then cnt + 1 else cnt) a =
        a + (l.filter (fun v => decide (0 ≤ v))).length := by
    intro l
    induction l with
    | nil => intro a; simp
    | cons v l ih =>
        intro a
        by_cases hv : (0 : Int) ≤ v
        · simp [List.foldl_cons, hv, ih, List.filter_cons]
          omega
        · simp [List.foldl_cons, hv, ih, List.filter_cons]
  have hsplit : ∀ l : List Int,
      (l.filter (fun v => decide (0 ≤ v))).length =
        (l.filter (fun v => decide (0 < v))).length +
          (l.filter (fun v => v == 0)).length := by
    intro l
    induction l with
    | nil => simp
    | cons v l ih =>
        rcases lt_trichotomy 0 v with hv | hv | hv
        · have h1 : (0 : Int) ≤ v := le_of_lt hv
          have h2 : ¬(v == 0) = true := by simp; omega
          simp [List.filter_cons, hv, h1, h2, ih]
          omega
        · simp [List.filter_cons, ← hv, ih]
          omega
        · have h1 : ¬(0 : Int) ≤ v := not_le.mpr hv
          have h2 : ¬(0 : Int) < v := not_lt.mpr (le_of_lt hv)
          have h3 : ¬(v == 0) = true := by simp; omega
          simp [List.filter_cons, h1, h2, h3, ih]
  constructor
  · simpa using hfold A.values 0
  · rw [indexmat.countoccurences]
    simpa [hsplit A.values] using hfold A.values 0

/-- Sum of a mapped range as a finite sum. -/
lemma listsum_range_map (f : Nat → Nat) (n : Nat) :
    ((List.range n).map f).sum = ∑ i in Finset.range n, f i := by
  induction n with
  | zero => simp
  | succ n ih =>
      rw [List.range_succ, List.map_append, List.sum_append, Finset.sum_range_succ, ih]
      simp

/-- Each in range value of a list is counted once across the per value
occurrence filters, so the filter lengths sum to the list length. -/
lemma filtercount_sum (l : List Int) (m : Nat)
    (hr : ∀ v ∈ l, 0 ≤ v ∧ v ≤ (m : Int)) :
    (∑ i in Finset.range (m + 1),
      (l.filter (fun v => v == (i : Int))).length) = l.length := by
  induction l with
  | nil => simp
  | cons a l ih =>
      have ha := hr a (List.mem_cons_self a l)
      have hrl : ∀ v ∈ l, 0 ≤ v ∧ v ≤ (m : Int) :=
        fun v hv => hr v (List.mem_cons_of_mem a hv)
      have key : ∀ i : Nat, ((a :: l).filter (fun v => v == (i : Int))).length =
          (if i = a.toNat then 1 else 0) +
            (l.filter (fun v => v == (i : Int))).length := by
        intro i
        by_cases h : a = (i : Int)
        · have hpa : (a == (i : Int)) = true := by simp [h]
          have hi : i = a.toNat := by omega
          rw [List.filter_cons, if_pos hpa, if_pos hi, List.length_cons]
          omega
        · have hpa : (a == (i : Int)) = false := by simp [h]
          have hi : ¬ i = a.toNat := by omega
          rw [List.filter_cons, if_neg (by simp [hpa]), if_neg hi, Nat.zero_add]
      rw [Finset.sum_congr rfl (fun i _ => key i), Finset.sum_add_distrib,
        Finset.sum_ite_eq' (Finset.range (m + 1)) a.toNat (fun _ => 1), ih hrl]
      have hmem : a.toNat ∈ Finset.range (m + 1) := by
        rw [Finset.mem_range]
        omega
      simp only [hmem, if_pos, List.length_cons]
      omega

/-- Claim C5: when every entry of the matrix lies between 0 and maxintval, the
histogram countalloccurences agrees with countoccurences at every value of the
range, and its entries sum to the total element count of the matrix. -/
theorem countalloccurences_histogram (A : indexmat) (maxintval : Nat)
    (hwf : A.wf) (hr : ∀ v ∈ A.values, 0 ≤ v ∧ v ≤ (maxintval : Int)) :
    (∀ v : Nat, v ≤ maxintval →
      (A.countalloccurences maxintval).getD v 0 = A.countoccurences (v : Int)) ∧
    (A.countalloccurences maxintval).sum = A.count := by
  constructor
  · intro v hvle
    have hv : v < maxintval + 1 := Nat.lt_succ_of_le hvle
    rw [indexmat.countalloccurences, List.getD_eq_getElem?_getD, List.getElem?_map,
      List.getElem?_range hv]
    rfl
  · have hmap : A.countalloccurences maxintval =
        (List.range (maxintval + 1)).map
          (fun i : Nat => (A.values.filter (fun v => v == (i : Int))).length) := rfl
    rw [hmap, listsum_range_map, filtercount_sum A.values maxintval hr]
    exact hwf

/-- Witness for claim C5 at a concrete matrix with entries in range. -/
theorem countalloccurences_histogram_witness :
    ((indexmat.mk 2 2 [0, 1, 1, 3]).countalloccurences 3).getD 1 0 =
      (indexmat.mk 2 2 [0, 1, 1, 3]).countoccurences ((1 : Nat) : Int) ∧
    ((indexmat.mk 2 2 [0, 1, 1, 3]).countalloccurences 3).sum =
      (indexmat.mk 2 2 [0, 1, 1, 3]).count := by
  have h := countalloccurences_histogram ⟨2, 2, [0, 1, 1, 3]⟩ 3 rfl (by decide)
  exact ⟨h.1 1 (by decide), h.2⟩

/-- Length of the flattening of n copies of a buffer. -/
lemma flatten_replicate_length {α : Type} (v : List α) (n : Nat) :
    ((List.replicate n v).flatten).length = n * v.length := by
  induction n with
  | zero => simp
  | succ n ih =>
      rw [List.replicate_succ, List.flatten_cons, List.length_append, ih, Nat.succ_mul]
      omega

/-- Dropping k whole copies from the flattening of n copies of a buffer. -/
lemma drop_flatten_replicate {α : Type} (v : List α) :
    ∀ (k n a : Nat), k < n →
      ((List.replicate n v).flatten).drop (k * v.length + a) =
        ((List.replicate (n - k) v).flatten).drop a := by
  intro k
  induction k with
  | zero =>
      intro n a h
      simp
  | succ k ih =>
      intro n a h
      cases n with
      | zero => omega
      | succ m =>
          have hk : k < m := by omega
          have harith : (k + 1) * v.length + a = v.length + (k * v.length + a) := by
            rw [Nat.succ_mul]
            omega
          rw [Nat.succ_sub_succ, List.replicate_succ, List.flatten_cons, harith,
            List.drop_append]
          exact ih m a hk

/-- A take entirely inside the left part of an append ignores the right part. -/
lemma take_drop_append {α : Type} (l l' : List α) (a b : Nat) (h : a + b ≤ l.length) :
    ((l ++ l').drop a).take b = (l.drop a).take b := by
  rw [List.drop_append_eq_append_drop, List.take_append_eq_append_take]
  have h1 : b - (l.drop a).length = 0 := by
    rw [List.length_drop]
    omega
  rw [h1, List.take_zero, List.append_nil]

/-- On a well formed matrix, every row below numrows has numcols entries. -/
lemma getrow_length (A : indexmat) (hwf : A.wf) (i : Nat) (hi : i < A.numrows) :
    (A.getrow i).length = A.numcols := by
  have hl : A.values.length = A.numrows * A.numcols := hwf
  have h2 : (i + 1) * A.numcols ≤ A.numrows * A.numcols :=
    Nat.mul_le_mul_right A.numcols (Nat.succ_le_of_lt hi)
  rw [Nat.succ_mul] at h2
  rw [indexmat.getrow, List.length_take, List.length_drop, hl]
  omega

/-- Flattening the row list of a well formed matrix recovers its buffer. -/
lemma flatten_chunks {α : Type} (q : Nat) :
    ∀ (p : Nat) (l : List α), l.length = p * q →
      ((List.range p).map (fun i => (l.drop (i * q)).take q)).flatten = l := by
  intro p
  induction p with
  | zero =>
      intro l hl
      rw [Nat.zero_mul] at hl
      rw [List.range_zero, List.map_nil, List.flatten_nil]
      exact (List.eq_nil_of_length_eq_zero hl).symm
  | succ p ih =>
      intro l hl
      rw [List.range_succ_eq_map, List.map_cons, List.flatten_cons, List.map_map]
      have hmap : ((List.range p).map ((fun i => (l.drop (i * q)).take q) ∘ Nat.succ)) =
          (List.range p).map (fun i => ((l.drop q).drop (i * q)).take q) := by
        apply List.map_congr_left
        intro i hi
        have : (i + 1) * q = q + i * q := by
          rw [Nat.succ_mul]
          omega
        simp only [Function.comp, Nat.succ_eq_add_one, this, List.drop_drop]
      rw [hmap, ih (l.drop q) (by rw [List.length_drop, hl, Nat.succ_mul]; omega)]
      rw [Nat.zero_mul, List.drop_zero, List.take_append_drop]

/-- Rows of the row by row duplication: row i times n plus k of the duplicated
list is row i of the original flat list. -/
lemma row_repeatrows (q n : Nat) :
    ∀ (rs : List (List Int)) (i k : Nat), (∀ r ∈ rs, r.length = q) →
      i < rs.length → k < n →
      ((repeatrows n rs).drop ((i * n + k) * q)).take q =
        ((rs.flatten).drop (i * q)).take q := by
  intro rs
  induction rs with
  | nil =>
      intro i k _ hi _
      exact absurd hi (Nat.not_lt_zero i)
  | cons r rs ih =>
      intro i k hq hi hk
      have hr : r.length = q := hq r (List.mem_cons_self r rs)
      have hlen : ((List.replicate n r).flatten).length = n * q := by
        rw [flatten_replicate_length, hr]
      rw [show repeatrows n (r :: rs) = (List.replicate n r).flatten ++ repeatrows n rs
        from rfl]
      cases i with
      | zero =>
          have hb : k * q + q ≤ n * q := by
            have h2 := Nat.mul_le_mul_right q (Nat.succ_le_of_lt hk)
            rw [Nat.succ_mul] at h2
            omega
          rw [show (0 * n + k) * q = k * q by rw [Nat.zero_mul, Nat.zero_add]]
          rw [take_drop_append _ _ _ _ (by rw [hlen]; exact hb)]
          rw [show k * q = k * r.length + 0 by rw [hr]; omega]
          rw [drop_flatten_replicate r k n 0 hk, List.drop_zero]
          obtain ⟨m, hm⟩ : ∃ m, n - k = m + 1 := ⟨n - k - 1, by omega⟩
          rw [hm, List.replicate_succ, List.flatten_cons, List.take_left' hr]
          rw [List.flatten_cons, Nat.zero_mul, List.drop_zero, List.take_left' hr]
      | succ i =>
          have harith : ((i + 1) * n + k) * q = n * q + ((i * n + k) * q) := by
            ring
          rw [harith, ← hlen, List.drop_append]
          rw [ih i k (fun r2 hr2 => hq r2 (List.mem_cons_of_mem _ hr2))
            (by exact Nat.lt_of_succ_lt_succ hi) hk]
          rw [List.flatten_cons]
          have harith2 : (i + 1) * q = r.length + i * q := by
            rw [hr, Nat.succ_mul]
            omega
          rw [harith2, List.drop_append]

/-- Claim C4: for a p by q matrix and n at least 1, duplicateallrowstogether
returns a matrix with p times n rows whose block of p rows repeats n times (so
row k times p plus i equals row i of the original, and in particular the first
p rows are unchanged), and duplicaterowsonebyone returns a matrix with p times
n rows where row i times n plus k equals row i of the original for every k
below n. -/
theorem duplicate_rows_spec (A : indexmat) (n : Nat) (hwf : A.wf) :
    (A.duplicateallrowstogether n).countrows = A.numrows * n ∧
    (A.duplicaterowsonebyone n).countrows = A.numrows * n ∧
    (∀ k i, k < n → i < A.numrows →
      (A.duplicateallrowstogether n).getrow (k * A.numrows + i) = A.getrow i) ∧
    (∀ i k, i < A.numrows → k < n →
      (A.duplicaterowsonebyone n).getrow (i * n + k) = A.getrow i) := by
  have hl : A.values.length = A.numrows * A.numcols := hwf
  refine ⟨rfl, rfl, ?_, ?_⟩
  · intro k i hk hi
    show (((List.replicate n A.values).flatten).drop
      ((k * A.numrows + i) * A.numcols)).take A.numcols = A.getrow i
    have harith : (k * A.numrows + i) * A.numcols =
        k * A.values.length + i * A.numcols := by
      rw [hl, Nat.add_mul, Nat.mul_assoc]
    rw [harith, drop_flatten_replicate A.values k n _ hk]
    obtain ⟨m, hm⟩ : ∃ m, n - k = m + 1 := ⟨n - k - 1, by omega⟩
    rw [hm, List.replicate_succ, List.flatten_cons]
    have hbound : i * A.numcols + A.numcols ≤ A.values.length := by
      have h2 := Nat.mul_le_mul_right A.numcols (Nat.succ_le_of_lt hi)
      rw [Nat.succ_mul] at h2
      omega
    rw [take_drop_append _ _ _ _ hbound]
    rfl
  · intro i k hi hk
    have hq : ∀ r ∈ A.rowsof, r.length = A.numcols := by
      intro r hr
      rw [indexmat.rowsof] at hr
      obtain ⟨j, hj, rfl⟩ := List.mem_map.mp hr
      exact getrow_length A hwf j (List.mem_range.mp hj)
    have hrows : A.rowsof.length = A.numrows := by
      rw [indexmat.rowsof, List.length_map, List.length_range]
    show ((repeatrows n A.rowsof).drop ((i * n + k) * A.numcols)).take A.numcols =
      A.getrow i
    rw [row_repeatrows A.numcols n A.rowsof i k hq (by rw [hrows]; exact hi) hk]
    have hflat : A.rowsof.flatten = A.values := by
      rw [indexmat.rowsof]
      exact flatten_chunks A.numcols A.numrows A.values hl
    rw [hflat]
    rfl

/-- Witness for claim C4 at a concrete 2 by 2 matrix duplicated twice. -/
theorem duplicate_rows_spec_witness :
    ((indexmat.mk 2 2 [1, 2, 3, 4]).duplicateallrowstogether 2).getrow (1 * 2 + 0) =
      (indexmat.mk 2 2 [1, 2, 3, 4]).getrow 0 ∧
    ((indexmat.mk 2 2 [1, 2, 3, 4]).duplicaterowsonebyone 2).getrow (0 * 2 + 1) =
      (indexmat.mk 2 2 [1, 2, 3, 4]).getrow 0 := by
  have h := duplicate_rows_spec ⟨2, 2, [1, 2, 3, 4]⟩ 2 rfl
  exact ⟨h.2.2.1 1 0 (by decide) (by decide), h.2.2.2 0 1 (by decide) (by decide)⟩

end Sparselizard
